import Mathlib

/-!
Verification of the tag-resolution core of version-checker
(pkg/version/version.go): semantic-version tag selection, SHA/timestamp
selection, the registry-client dispatcher, the option-hash fingerprint,
and the tag cache around the remote fetch.

The Go code is embedded shallowly: pure functions become Lean functions,
the cache becomes explicit state passing, fallible functions return a
pair (value, Option error) mirroring the Go (value, error) convention,
and the lock usage of the cache path is made explicit through an event
trace. Parts of the repository that version.go uses but whose sources
are not under src/ (the api types, the cache helper tryImageCache, the
masterminds semver library, the registry clients) are modelled from the
specification; their doc comments say so explicitly.
-/

namespace VersionChecker

/-! ## Comparator infrastructure

Lawfulness of a three-way comparator, enough to reason about the
"keep the strictly larger element" scan that both selection loops in
version.go perform. -/

/-- Basic laws of a three-way comparator: antisymmetry of the result
under swapping, transitivity of strict comparison, and substitutivity
of comparator-equality. -/
structure CmpLawful {α : Type _} (cmp : α → α → Ordering) : Prop where
  symm : ∀ x y, cmp y x = (cmp x y).swap
  lt_trans : ∀ x y z, cmp x y = .lt → cmp y z = .lt → cmp x z = .lt
  eq_subst : ∀ x y, cmp x y = .eq → ∀ z, cmp x z = cmp y z

theorem CmpLawful.refl_eq {α : Type _} {cmp : α → α → Ordering}
    (h : CmpLawful cmp) (x : α) : cmp x x = .eq := by
  have hs := h.symm x x
  cases hx : cmp x x
  · rw [hx] at hs; exact absurd hs (by decide)
  · rfl
  · rw [hx] at hs; exact absurd hs (by decide)

theorem CmpLawful.eq_subst_r {α : Type _} {cmp : α → α → Ordering}
    (h : CmpLawful cmp) {x y : α} (hxy : cmp x y = .eq) (z : α) :
    cmp z x = cmp z y := by
  rw [h.symm x z, h.symm y z, h.eq_subst x y hxy z]

theorem CmpLawful.gt_iff_lt {α : Type _} {cmp : α → α → Ordering}
    (h : CmpLawful cmp) (x y : α) : cmp x y = .gt ↔ cmp y x = .lt := by
  rw [h.symm y x]
  cases hyx : cmp y x <;> decide

/-- Composing comparators lexicographically (compare with the first,
break ties with the second) preserves lawfulness. -/
theorem CmpLawful.then_lawful {α : Type _} {cmp1 cmp2 : α → α → Ordering}
    (h1 : CmpLawful cmp1) (h2 : CmpLawful cmp2) :
    CmpLawful (fun x y => (cmp1 x y).then (cmp2 x y)) := by
  constructor
  · intro x y
    rw [h1.symm x y, h2.symm x y]
    cases cmp1 x y <;> simp [Ordering.then, Ordering.swap]
  · intro x y z hxy hyz
    simp only at hxy hyz ⊢
    cases hc1 : cmp1 x y <;> rw [hc1] at hxy <;> simp [Ordering.then] at hxy
    · -- cmp1 x y = lt
      cases hc2 : cmp1 y z <;> rw [hc2] at hyz <;> simp [Ordering.then] at hyz
      · rw [h1.lt_trans x y z hc1 hc2]; rfl
      · rw [← h1.eq_subst_r hc2 x, hc1]; rfl
    · -- cmp1 x y = eq, cmp2 x y = lt
      cases hc2 : cmp1 y z <;> rw [hc2] at hyz <;> simp [Ordering.then] at hyz
      · rw [h1.eq_subst x y hc1 z, hc2]; rfl
      · rw [h1.eq_subst x y hc1 z, hc2]
        simp [Ordering.then, h2.lt_trans x y z hxy hyz]
  · intro x y hxy z
    simp only at hxy ⊢
    cases hc1 : cmp1 x y <;> rw [hc1] at hxy <;> simp [Ordering.then] at hxy
    rw [h1.eq_subst x y hc1 z, h2.eq_subst x y hxy z]

/-- Pulling a comparator back along a projection preserves lawfulness. -/
theorem CmpLawful.on_fn {α β : Type _} {cmp : α → α → Ordering}
    (h : CmpLawful cmp) (f : β → α) :
    CmpLawful (fun x y => cmp (f x) (f y)) := by
  constructor
  · intro x y; exact h.symm (f x) (f y)
  · intro x y z; exact h.lt_trans (f x) (f y) (f z)
  · intro x y hxy z; exact h.eq_subst (f x) (f y) hxy (f z)

/-- Three-way comparison on naturals. -/
def compareNat (a b : Nat) : Ordering :=
  if a < b then .lt else if b < a then .gt else .eq

theorem compareNat_eq_iff (a b : Nat) : compareNat a b = .eq ↔ a = b := by
  unfold compareNat
  split_ifs <;> simp <;> omega

theorem compareNat_lawful : CmpLawful compareNat := by
  constructor
  · intro x y
    simp only [compareNat]
    split_ifs <;> first | decide | (exfalso; omega)
  · intro x y z hxy hyz
    simp only [compareNat] at hxy hyz ⊢
    split_ifs at hxy hyz ⊢ <;> first | rfl | (exfalso; omega)
  · intro x y hxy z
    have hxy2 := (compareNat_eq_iff x y).mp hxy
    subst hxy2
    rfl

/-- Lexicographic comparison of lists by an element comparator; a strict
prefix compares less than the longer list. -/
def lexCompare {α : Type _} (cmp : α → α → Ordering) : List α → List α → Ordering
  | [], [] => .eq
  | [], _ :: _ => .lt
  | _ :: _, [] => .gt
  | a :: as, b :: bs => (cmp a b).then (lexCompare cmp as bs)

theorem lexCompare_lawful {α : Type _} {cmp : α → α → Ordering}
    (h : CmpLawful cmp) : CmpLawful (lexCompare cmp) := by
  constructor
  · intro x
    induction x with
    | nil => intro y; cases y <;> simp [lexCompare, Ordering.swap]
    | cons a as ih =>
      intro y
      cases y with
      | nil => simp [lexCompare, Ordering.swap]
      | cons b bs =>
        simp only [lexCompare]
        rw [h.symm a b, ih bs]
        cases cmp a b <;> simp [Ordering.then, Ordering.swap]
  · intro x
    induction x with
    | nil =>
      intro y z hxy hyz
      cases y <;> simp [lexCompare] at hxy
      cases z <;> simp [lexCompare] at hyz ⊢
    | cons a as ih =>
      intro y z hxy hyz
      cases y with
      | nil => simp [lexCompare] at hxy
      | cons b bs =>
        cases z with
        | nil => simp [lexCompare] at hyz
        | cons c cs =>
          simp only [lexCompare] at hxy hyz ⊢
          cases hab : cmp a b <;> rw [hab] at hxy <;> simp [Ordering.then] at hxy
          · cases hbc : cmp b c <;> rw [hbc] at hyz <;> simp [Ordering.then] at hyz
            · rw [h.lt_trans a b c hab hbc]; rfl
            · rw [← h.eq_subst_r hbc a, hab]; rfl
          · cases hbc : cmp b c <;> rw [hbc] at hyz <;> simp [Ordering.then] at hyz
            · rw [h.eq_subst a b hab c, hbc]; rfl
            · rw [h.eq_subst a b hab c, hbc]
              simp [Ordering.then, ih bs cs hxy hyz]
  · intro x
    induction x with
    | nil =>
      intro y hxy z
      cases y <;> simp [lexCompare] at hxy ⊢
    | cons a as ih =>
      intro y hxy z
      cases y with
      | nil => simp [lexCompare] at hxy
      | cons b bs =>
        simp only [lexCompare] at hxy ⊢
        cases hab : cmp a b <;> rw [hab] at hxy <;> simp [Ordering.then] at hxy
        cases z with
        | nil => simp [lexCompare]
        | cons c cs =>
          simp only [lexCompare]
          rw [h.eq_subst a b hab c, ih bs hxy cs]

/-! ## The semver library, modelled from the spec

version.go delegates parsing and ordering of version tags to the
masterminds semver library, a dependency whose source is not under
src/. The definitions in this namespace are therefore modelled from the
spec: a semantic version is major.minor.patch with an optional
pre-release (dot-separated identifiers) and optional build metadata,
ordered by the standard semantic-versioning precedence rules; tag text
that does not have this shape fails to parse with the invalid-semver
error that version.go checks for. An optional leading letter v is
tolerated, as the spec leaves that normalization open. -/

namespace semver

/-- Modelled from the spec: one pre-release identifier of the
masterminds semver library. Numeric identifiers compare numerically and
rank below alphanumeric identifiers, which compare lexically. -/
inductive PreId where
  | num (n : Nat)
  | alpha (s : String)
deriving DecidableEq

/-- Modelled from the spec: a parsed semantic version of the
masterminds semver library: major.minor.patch plus the pre-release
identifier list (empty when the version is not a pre-release). Build
metadata is validated by parsing but ignored by precedence. -/
structure Version where
  major : Nat
  minor : Nat
  patch : Nat
  pre : List PreId
deriving DecidableEq

/-- Modelled from the spec: the parse-failure value of the masterminds
semver library. The spec says tags that fail to parse as semantic
versions are silently skipped, and version.go distinguishes exactly the
invalid-semver error value for that purpose. -/
inductive SemverError where
  | invalidSemVer
deriving DecidableEq

def isDigitChar (c : Char) : Bool := decide ('0' ≤ c) && decide (c ≤ '9')

def isIdentChar (c : Char) : Bool :=
  isDigitChar c || (decide ('a' ≤ c) && decide (c ≤ 'z')) ||
    (decide ('A' ≤ c) && decide (c ≤ 'Z')) || c == '-'

def digitsToNat (ds : List Char) : Nat :=
  ds.foldl (fun a c => a * 10 + (c.toNat - 48)) 0

def takeDigits (cs : List Char) : List Char × List Char :=
  (cs.takeWhile isDigitChar, cs.dropWhile isDigitChar)

/-- Split a character list at every dot, like the dot-separated
identifier structure of pre-release and metadata sections. -/
def splitDots : List Char → List (List Char)
  | [] => [[]]
  | c :: rest =>
    if c == '.' then [] :: splitDots rest
    else
      match splitDots rest with
      | [] => [[c]]
      | p :: ps => (c :: p) :: ps

/-- Split a character list at the first plus sign, separating the
pre-release section from the build metadata section. -/
def splitAtPlus : List Char → List Char × Option (List Char)
  | [] => ([], none)
  | c :: rest =>
    if c == '+' then ([], some rest)
    else
      let (a, b) := splitAtPlus rest
      (c :: a, b)

def identToPreId (p : List Char) : PreId :=
  if p.all isDigitChar then .num (digitsToNat p) else .alpha (String.mk p)

/-- Parse the pre-release section (text after the dash): nonempty
dot-separated identifiers over digits, letters and dashes. -/
def parsePreIds (cs : List Char) : Option (List PreId) :=
  if cs.isEmpty then none
  else
    let parts := splitDots cs
    if parts.all (fun p => !p.isEmpty && p.all isIdentChar) then
      some (parts.map identToPreId)
    else none

/-- Validity of the build metadata section (text after the plus). -/
def validMeta (cs : List Char) : Bool :=
  !cs.isEmpty && (splitDots cs).all (fun p => !p.isEmpty && p.all isIdentChar)

/-- Parse what follows the major.minor.patch core: nothing, a
pre-release section, a metadata section, or both. -/
def finishTail (major minor patch : Nat) : List Char → Except SemverError Version
  | [] => .ok ⟨major, minor, patch, []⟩
  | '+' :: meta =>
    if validMeta meta then .ok ⟨major, minor, patch, []⟩ else .error .invalidSemVer
  | '-' :: rest =>
    let (preCs, metaOpt) := splitAtPlus rest
    match parsePreIds preCs with
    | none => .error .invalidSemVer
    | some pre =>
      match metaOpt with
      | none => .ok ⟨major, minor, patch, pre⟩
      | some meta =>
        if validMeta meta then .ok ⟨major, minor, patch, pre⟩ else .error .invalidSemVer
  | _ => .error .invalidSemVer

/-- Modelled from the spec: parsing of a tag text as a semantic version
by the masterminds semver library. Minor and patch default to zero when
absent; a tag without the semantic-version shape fails with the
invalid-semver error. -/
def newVersion (s : String) : Except SemverError Version :=
  let cs0 := s.data
  let cs :=
    match cs0 with
    | 'v' :: rest => rest
    | _ => cs0
  let (majDs, r1) := takeDigits cs
  if majDs.isEmpty then .error .invalidSemVer
  else
    match r1 with
    | '.' :: r2 =>
      let (minDs, r3) := takeDigits r2
      if minDs.isEmpty then .error .invalidSemVer
      else
        match r3 with
        | '.' :: r4 =>
          let (patDs, r5) := takeDigits r4
          if patDs.isEmpty then .error .invalidSemVer
          else finishTail (digitsToNat majDs) (digitsToNat minDs) (digitsToNat patDs) r5
        | r => finishTail (digitsToNat majDs) (digitsToNat minDs) 0 r
    | r => finishTail (digitsToNat majDs) 0 0 r

/-- Lexical comparison of identifier text by character code points. -/
def strCompare (a b : String) : Ordering :=
  lexCompare (fun c d => compareNat c.toNat d.toNat) a.data b.data

/-- Modelled from the spec: precedence of single pre-release
identifiers under the semantic-versioning rules. -/
def idCompare : PreId → PreId → Ordering
  | .num a, .num b => compareNat a b
  | .num _, .alpha _ => .lt
  | .alpha _, .num _ => .gt
  | .alpha a, .alpha b => strCompare a b

/-- Modelled from the spec: precedence of whole pre-release sections. A
version without a pre-release ranks above any pre-release of the same
core; two pre-release lists compare identifier by identifier, a strict
prefix ranking lower. -/
def preCompare : List PreId → List PreId → Ordering
  | [], [] => .eq
  | [], _ :: _ => .gt
  | _ :: _, [] => .lt
  | a :: as, b :: bs => lexCompare idCompare (a :: as) (b :: bs)

/-- Modelled from the spec: the precedence comparison of the
masterminds semver library, standard major.minor.patch then pre-release
rules. -/
def semverCompare (v w : Version) : Ordering :=
  (compareNat v.major w.major).then
    ((compareNat v.minor w.minor).then
      ((compareNat v.patch w.patch).then (preCompare v.pre w.pre)))

/-- Modelled from the spec: the strict-order test the selection loop in
version.go performs between the running best version and the candidate. -/
def lessThan (v w : Version) : Bool := semverCompare v w == .lt

theorem strCompare_lawful : CmpLawful strCompare :=
  (lexCompare_lawful (compareNat_lawful.on_fn Char.toNat)).on_fn String.data

theorem idCompare_lawful : CmpLawful idCompare := by
  constructor
  · intro x y
    cases x with
    | num a =>
      cases y with
      | num b => exact compareNat_lawful.symm a b
      | alpha b => rfl
    | alpha a =>
      cases y with
      | num b => rfl
      | alpha b => exact strCompare_lawful.symm a b
  · intro x y z hxy hyz
    cases x <;> cases y <;> cases z <;> simp only [idCompare] at hxy hyz ⊢ <;>
      first
      | rfl
      | exact absurd hxy (by decide)
      | exact absurd hyz (by decide)
      | exact compareNat_lawful.lt_trans _ _ _ hxy hyz
      | exact strCompare_lawful.lt_trans _ _ _ hxy hyz
  · intro x y hxy z
    cases x with
    | num a =>
      cases y with
      | num b =>
        simp only [idCompare] at hxy
        have hab := (compareNat_eq_iff a b).mp hxy
        subst hab
        rfl
      | alpha b => simp only [idCompare] at hxy; exact absurd hxy (by decide)
    | alpha a =>
      cases y with
      | num b => simp only [idCompare] at hxy; exact absurd hxy (by decide)
      | alpha b =>
        simp only [idCompare] at hxy
        cases z with
        | num c => rfl
        | alpha c =>
          simp only [idCompare]
          exact strCompare_lawful.eq_subst a b hxy c

theorem preCompare_lawful : CmpLawful preCompare := by
  have hplex := lexCompare_lawful idCompare_lawful
  constructor
  · intro x y
    cases x <;> cases y <;> first | rfl | exact hplex.symm _ _
  · intro x y z hxy hyz
    cases x <;> cases y <;> cases z <;> simp only [preCompare] at hxy hyz ⊢ <;>
      first
      | rfl
      | exact absurd hxy (by decide)
      | exact absurd hyz (by decide)
      | exact hplex.lt_trans _ _ _ hxy hyz
  · intro x y hxy z
    cases x with
    | nil =>
      cases y with
      | nil => rfl
      | cons b bs => simp only [preCompare] at hxy; exact absurd hxy (by decide)
    | cons a as =>
      cases y with
      | nil => simp only [preCompare] at hxy; exact absurd hxy (by decide)
      | cons b bs =>
        simp only [preCompare] at hxy
        cases z with
        | nil => rfl
        | cons c cs =>
          simp only [preCompare]
          exact hplex.eq_subst _ _ hxy _

theorem semverCompare_lawful : CmpLawful semverCompare :=
  (compareNat_lawful.on_fn Version.major).then_lawful
    ((compareNat_lawful.on_fn Version.minor).then_lawful
      ((compareNat_lawful.on_fn Version.patch).then_lawful
        (preCompare_lawful.on_fn Version.pre)))

end semver

/-! ## Derived strict-order facts used by the selection-scan lemma -/

theorem CmpLawful.lt_of_not_lt_of_lt {α : Type _} {cmp : α → α → Ordering}
    (h : CmpLawful cmp) {x y z : α} (hxy : cmp x y ≠ .lt) (hxz : cmp x z = .lt) :
    cmp y z = .lt := by
  cases hc : cmp x y
  · exact absurd hc hxy
  · rw [← h.eq_subst x y hc z]; exact hxz
  · exact h.lt_trans y x z ((h.gt_iff_lt x y).mp hc) hxz

theorem CmpLawful.lt_of_lt_of_not_lt {α : Type _} {cmp : α → α → Ordering}
    (h : CmpLawful cmp) {x y z : α} (hxy : cmp x y = .lt) (hzy : cmp z y ≠ .lt) :
    cmp x z = .lt := by
  cases hc : cmp z y
  · exact absurd hc hzy
  · rw [h.eq_subst_r hc x]; exact hxy
  · exact h.lt_trans x y z hxy ((h.gt_iff_lt z y).mp hc)

/-! ## The api data model, modelled from the spec (pkg/api is not under src/) -/

/-- Modelled from the spec: api.ImageTag, one observed tag of an image.
The registry-reported push time is an integer time point; the After
test of the source is the strict order on it. -/
structure ImageTag where
  tag : String
  sha : String
  timestamp : Int
deriving DecidableEq

/-- Modelled from the spec: api.Options, the caller-supplied selection
policy. The pins are optional integers; the compiled RegexMatcher is
consumed only through MatchString, so it is modelled as an optional
predicate on the tag text. -/
structure Options where
  useSHA : Bool
  usePreRelease : Bool
  pinMajor : Option Nat
  pinMinor : Option Nat
  pinPatch : Option Nat
  regexMatcher : Option (String → Bool)

/-- Error values returned by the tag-resolution core, one constructor
per error construction site in version.go. -/
inductive VErr where
  | fetchFailed (imageURL : String) (msg : String)
  | noTagsFound (imageURL : String)
  | noMatchConstraints (opts : Options)
  | noLatestSHA

/-! ## The semver selection path (latestSemver, version.go lines 144 to 190) -/

/-- Negation of the regex skip guard of the loop: a configured matcher
that does not match the tag text skips the tag. -/
def regexOK (opts : Options) (t : ImageTag) : Bool :=
  match opts.regexMatcher with
  | none => true
  | some re => re t.tag

/-- Negation of the pre-release skip guard of the loop: a version with
a pre-release component is skipped unless UsePreRelease is set. -/
def preOK (opts : Options) (v : semver.Version) : Bool :=
  !(!v.pre.isEmpty && !opts.usePreRelease)

/-- Negation of the pinned-major skip guard of the loop. -/
def pinMajorOK (opts : Options) (v : semver.Version) : Bool :=
  match opts.pinMajor with
  | none => true
  | some m => v.major == m

/-- Negation of the pinned-minor skip guard of the loop. -/
def pinMinorOK (opts : Options) (v : semver.Version) : Bool :=
  match opts.pinMinor with
  | none => true
  | some m => v.minor == m

/-- Negation of the pinned-patch skip guard of the loop. -/
def pinPatchOK (opts : Options) (v : semver.Version) : Bool :=
  match opts.pinPatch with
  | none => true
  | some m => v.patch == m

/-- The selection loop of latestSemver (version.go lines 148 to 183),
with the running best parsed version and its tag as the accumulator.
Guard order matches the source: parse, regex, pre-release, pinned
major, minor, patch; the running best is replaced exactly when it is
strictly less than the candidate. In the source a parse error other
than the invalid-semver value would abort the loop with that error; in
the spec-modelled library parse failure is exactly the invalid-semver
value, so the skip branch is the only reachable error branch. -/
def latestSemverGo (opts : Options) :
    List ImageTag → Option (semver.Version × ImageTag) → Option (semver.Version × ImageTag)
  | [], best => best
  | t :: rest, best =>
    match semver.newVersion t.tag with
    | .error .invalidSemVer => latestSemverGo opts rest best
    | .ok v =>
      if !regexOK opts t then latestSemverGo opts rest best
      else if !preOK opts v then latestSemverGo opts rest best
      else if !pinMajorOK opts v then latestSemverGo opts rest best
      else if !pinMinorOK opts v then latestSemverGo opts rest best
      else if !pinPatchOK opts v then latestSemverGo opts rest best
      else
        match best with
        | none => latestSemverGo opts rest (some (v, t))
        | some (bv, bt) =>
          if semver.lessThan bv v then latestSemverGo opts rest (some (v, t))
          else latestSemverGo opts rest (some (bv, bt))

/-- Embedding of latestSemver (version.go lines 144 to 190): run the
loop from an empty best; a nil best at the end is the no-match error
echoing the option set, otherwise the winning tag is returned. -/
def latestSemver (opts : Options) (tags : List ImageTag) : Option ImageTag × Option VErr :=
  match latestSemverGo opts tags none with
  | none => (none, some (VErr.noMatchConstraints opts))
  | some (_, t) => (some t, none)

/-! ## The SHA selection path (latestSHA, version.go lines 193 to 207) -/

/-- The selection loop of latestSHA: the running best tag is replaced
exactly when the candidate timestamp is strictly after it. -/
def latestSHAGo : List ImageTag → Option ImageTag → Option ImageTag
  | [], best => best
  | t :: rest, best =>
    match best with
    | none => latestSHAGo rest (some t)
    | some b =>
      if b.timestamp < t.timestamp then latestSHAGo rest (some t)
      else latestSHAGo rest (some b)

/-- Embedding of latestSHA (version.go lines 193 to 207): a nil best at
the end (empty input) is the no-latest error, otherwise the winning
tag is returned. -/
def latestSHA (tags : List ImageTag) : Option ImageTag × Option VErr :=
  match latestSHAGo tags none with
  | none => (none, some VErr.noLatestSHA)
  | some t => (some t, none)

/-! ## The client dispatcher (clientFromImage, version.go lines 127 to 139) -/

/-- The three registry clients held by VersionGetter. -/
inductive Client where
  | quay
  | gcr
  | docker
deriving DecidableEq

/-- Modelled from the spec: the registry clients are external
capabilities consumed through the membership predicate IsClient (their
packages are not under src/), so each is modelled by its predicate on
image URLs. -/
structure ClientSet where
  quayIs : String → Bool
  gcrIs : String → Bool
  dockerIs : String → Bool

/-- Embedding of clientFromImage (version.go lines 127 to 139): switch
on the membership predicates in source order quay, gcr, docker, with
docker as the fallback of the default case. -/
def clientFromImage (cs : ClientSet) (imageURL : String) : Client :=
  if cs.quayIs imageURL then .quay
  else if cs.gcrIs imageURL then .gcr
  else if cs.dockerIs imageURL then .docker
  else .docker

/-- Stated from the words of the spec for comparison with the source:
try each registered client predicate in the fixed priority order quay,
gcr, docker; the first predicate returning true wins; the designated
default docker is returned (never an error) when none matches. -/
def dispatchSpec (cs : ClientSet) (imageURL : String) : Client :=
  match List.find? (fun pc => pc.1 imageURL)
      [(cs.quayIs, Client.quay), (cs.gcrIs, Client.gcr), (cs.dockerIs, Client.docker)] with
  | some pc => pc.2
  | none => Client.docker

/-! ## The option fingerprint (CalculateHashIndex, version.go lines 111 to 123) -/

def fnv32OffsetBasis : Nat := 2166136261

def fnv32Prime : Nat := 16777619

/-- One byte step of the 32-bit FNV-1 hash of hash/fnv New32: multiply
by the FNV prime modulo 2 to the 32, then xor the byte in. -/
def fnv32Step (h b : Nat) : Nat := (h * fnv32Prime % 2 ^ 32) ^^^ b

/-- The 32-bit FNV-1 hash of a byte sequence, from the FNV offset
basis. -/
def fnv32 (bytes : List Nat) : Nat := bytes.foldl fnv32Step fnv32OffsetBasis

def natBytes (n : Nat) : List Nat := (toString n).data.map Char.toNat

def optNatBytes : Option Nat → List Nat
  | none => [110]
  | some n => 115 :: natBytes n

def boolByte (b : Bool) : Nat := if b then 116 else 102

/-- Modelled from the spec: the canonical, field-order-stable byte
serialization of api.Options that json.Marshal performs in version.go
(pkg/api is not under src/). The compiled regex matcher exposes no
serializable fields, so only its presence enters the serialization. -/
def serializeOptions (o : Options) : List Nat :=
  boolByte o.useSHA :: boolByte o.usePreRelease ::
    (optNatBytes o.pinMajor ++ optNatBytes o.pinMinor ++ optNatBytes o.pinPatch ++
      [boolByte o.regexMatcher.isSome])

/-- Byte sequence of the image URL text appended after the serialized
options, as at version.go line 118. -/
def strBytes (s : String) : List Nat := s.data.map Char.toNat

/-- Embedding of CalculateHashIndex (version.go lines 111 to 123):
serialize the options, append the URL bytes, hash with 32-bit FNV-1,
render the sum in decimal. The two error returns of the source (marshal
failure, hash write failure) cannot occur: the modelled serialization
is total and the FNV write never fails. -/
def CalculateHashIndex (imageURL : String) (opts : Options) : Except String String :=
  .ok (toString (fnv32 (serializeOptions opts ++ strBytes imageURL)))

/-! ## The tag cache and allTagsFromImage (version.go lines 80 to 108) -/

/-- One slot of the tag cache of VersionGetter (imageCacheItem; its
declaring file is not under src/, shape per the CacheEntry of the
spec): insertion time and the tag list fetched then. -/
structure ImageCacheItem where
  timestamp : Int
  tags : List ImageTag
deriving DecidableEq

/-- The backing map of the cache, as an insert-or-replace association
list keyed by image URL. -/
abbrev Cache := List (String × ImageCacheItem)

def lookupCache (c : Cache) (url : String) : Option ImageCacheItem :=
  (c.find? (fun p => p.1 == url)).map (fun p => p.2)

/-- Modelled from the spec: tryImageCache of VersionGetter (its
declaring file is not under src/): return the cached tag list only if
an entry exists and its age is strictly less than the configured TTL
(cacheTimeout). -/
def tryImageCache (now ttl : Int) (c : Cache) (url : String) : Option (List ImageTag) :=
  match lookupCache c url with
  | none => none
  | some item => if now - item.timestamp < ttl then some item.tags else none

/-- The map assignment at version.go lines 103 to 106: insert or
replace the entry of the URL. -/
def storeCache (c : Cache) (url : String) (item : ImageCacheItem) : Cache :=
  (url, item) :: c.filter (fun p => !(p.1 == url))

/-- Observable events of one resolution. Each write to the cache map
records whether the writer form of cacheMu was held at the write. -/
inductive TraceEvent where
  | cacheHit (imageURL : String)
  | fetch (client : Client) (imageURL : String)
  | storeWrite (imageURL : String) (writerLockHeld : Bool)
deriving DecidableEq

/-- The parts of VersionGetter that allTagsFromImage reads and writes:
the current time, the configured cacheTimeout, and the cache map. -/
structure VGState where
  now : Int
  cacheTimeout : Int
  imageCache : Cache

/-- Embedding of allTagsFromImage (version.go lines 80 to 108). On a
cache hit the cached tags are returned at once. On a miss the
dispatched client fetches; a fetch error or an empty result is
returned as an error without touching the cache; a non-empty result is
stored and returned. The source performs the map assignment at lines
103 to 106 without acquiring cacheMu (no Lock or RLock call appears in
the function), which the store event records as writerLockHeld false. -/
def allTagsFromImage (st : VGState) (cs : ClientSet)
    (fetch : Client → String → Except String (List ImageTag))
    (imageURL : String) : (List ImageTag × Option VErr) × Cache × List TraceEvent :=
  match tryImageCache st.now st.cacheTimeout st.imageCache imageURL with
  | some tags => ((tags, none), st.imageCache, [TraceEvent.cacheHit imageURL])
  | none =>
    match fetch (clientFromImage cs imageURL) imageURL with
    | .error e =>
      (([], some (VErr.fetchFailed imageURL e)), st.imageCache,
        [TraceEvent.fetch (clientFromImage cs imageURL) imageURL])
    | .ok tags =>
      if tags.length == 0 then
        (([], some (VErr.noTagsFound imageURL)), st.imageCache,
          [TraceEvent.fetch (clientFromImage cs imageURL) imageURL])
      else
        ((tags, none),
          storeCache st.imageCache imageURL ⟨st.now, tags⟩,
          [TraceEvent.fetch (clientFromImage cs imageURL) imageURL,
            TraceEvent.storeWrite imageURL false])

/-- Embedding of LatestTagFromImage (version.go lines 63 to 75):
resolve all tags through the cache, propagate a resolution error,
otherwise select by latestSHA when UseSHA is set and by latestSemver
otherwise. -/
def LatestTagFromImage (st : VGState) (cs : ClientSet)
    (fetch : Client → String → Except String (List ImageTag))
    (opts : Options) (imageURL : String) :
    (Option ImageTag × Option VErr) × Cache × List TraceEvent :=
  match allTagsFromImage st cs fetch imageURL with
  | ((tags, errOpt), cache2, tr) =>
    match errOpt with
    | some e => ((none, some e), cache2, tr)
    | none =>
      if opts.useSHA then (latestSHA tags, cache2, tr)
      else (latestSemver opts tags, cache2, tr)

/-! ## The selection scan and its first-encountered-maximum lemma -/

/-- The shared shape of both selection loops in version.go: scan the
list, replacing the running best exactly when the strict test puts the
best below the candidate. -/
def scanBest {α : Type _} (ltB : α → α → Bool) : List α → Option α → Option α
  | [], best => best
  | x :: rest, best =>
    match best with
    | none => scanBest ltB rest (some x)
    | some q => if ltB q x then scanBest ltB rest (some x) else scanBest ltB rest (some q)

/-- The filter pipeline of the latestSemver loop for one tag: the
parsed version when the tag parses and passes the regex, pre-release
and pin guards, in source order. -/
def survives (opts : Options) (t : ImageTag) : Option semver.Version :=
  match semver.newVersion t.tag with
  | .error _ => none
  | .ok v =>
    if !regexOK opts t then none
    else if !preOK opts v then none
    else if !pinMajorOK opts v then none
    else if !pinMinorOK opts v then none
    else if !pinPatchOK opts v then none
    else some v

/-- The tags surviving all filters of the latestSemver loop, paired
with their parsed versions, in encounter order. -/
def survivorsList (opts : Options) (tags : List ImageTag) : List (semver.Version × ImageTag) :=
  tags.filterMap (fun t => (survives opts t).map (fun v => (v, t)))

/-- Core lemma on the selection scan with a seeded best: the scan of a
strict test that is irreflexive, transitive and linear-like returns the
first-encountered maximum of seed and list: some element m at a split
position such that no scanned element is strictly above m and every
element before m is strictly below m. -/
theorem scanBest_go_spec {α : Type _} (ltB : α → α → Bool)
    (hirr : ∀ x, ltB x x = false)
    (htr : ∀ x y z, ltB x y = true → ltB y z = true → ltB x z = true)
    (hnl : ∀ x y z, ltB x y = false → ltB x z = true → ltB y z = true)
    (hln : ∀ x y z, ltB x y = true → ltB z y = false → ltB x z = true)
    (l : List α) (q : α) :
    ∃ l1 m l2, q :: l = l1 ++ m :: l2 ∧ scanBest ltB l (some q) = some m ∧
      (∀ x ∈ q :: l, ltB m x = false) ∧ (∀ x ∈ l1, ltB x m = true) := by
  induction l generalizing q with
  | nil =>
    refine ⟨[], q, [], rfl, rfl, ?_, by simp⟩
    intro x hx
    rw [List.mem_singleton] at hx
    rw [hx]
    exact hirr q
  | cons p rest ih =>
    by_cases hqp : ltB q p = true
    · obtain ⟨l1, m, l2, hsplit, hres, hmax, hfirst⟩ := ih p
      refine ⟨q :: l1, m, l2, ?_, ?_, ?_, ?_⟩
      · rw [List.cons_append, ← hsplit]
      · simp only [scanBest, hqp, if_true]
        exact hres
      · intro x hx
        rcases List.mem_cons.mp hx with hx | hx
        · rw [hx]
          by_contra hmq
          rw [Bool.not_eq_false] at hmq
          have hmp : ltB m p = true := htr m q p hmq hqp
          have hmpf := hmax p (List.mem_cons_self p rest)
          rw [hmp] at hmpf
          cases hmpf
        · exact hmax x hx
      · intro x hx
        rcases List.mem_cons.mp hx with hx | hx
        · rw [hx]
          exact hln q p m hqp (hmax p (List.mem_cons_self p rest))
        · exact hfirst x hx
    · rw [Bool.not_eq_true] at hqp
      obtain ⟨l1, m, l2, hsplit, hres, hmax, hfirst⟩ := ih q
      cases l1 with
      | nil =>
        rw [List.nil_append] at hsplit
        injection hsplit with hm hl2
        subst hm
        subst hl2
        refine ⟨[], q, p :: rest, rfl, ?_, ?_, by simp⟩
        · simp only [scanBest, hqp, Bool.false_eq_true, if_false]
          exact hres
        · intro x hx
          rcases List.mem_cons.mp hx with hx | hx
          · rw [hx]
            exact hirr q
          rcases List.mem_cons.mp hx with hx | hx
          · rw [hx]
            exact hqp
          · exact hmax x (List.mem_cons_of_mem q hx)
      | cons q0 l1t =>
        rw [List.cons_append] at hsplit
        injection hsplit with hq0 hrest
        subst hq0
        refine ⟨q :: p :: l1t, m, l2, ?_, ?_, ?_, ?_⟩
        · rw [List.cons_append, List.cons_append, ← hrest]
        · simp only [scanBest, hqp, Bool.false_eq_true, if_false]
          exact hres
        · intro x hx
          rcases List.mem_cons.mp hx with hx | hx
          · rw [hx]
            exact hmax q (List.mem_cons_self q rest)
          rcases List.mem_cons.mp hx with hx | hx
          · rw [hx]
            by_contra hmp
            rw [Bool.not_eq_false] at hmp
            have hqm : ltB q m = true := hfirst q (List.mem_cons_self q l1t)
            have : ltB q p = true := htr q m p hqm hmp
            rw [this] at hqp
            cases hqp
          · exact hmax x (List.mem_cons_of_mem q hx)
        · intro x hx
          rcases List.mem_cons.mp hx with hx | hx
          · rw [hx]
            exact hfirst q (List.mem_cons_self q l1t)
          rcases List.mem_cons.mp hx with hx | hx
          · rw [hx]
            exact hnl q p m hqp (hfirst q (List.mem_cons_self q l1t))
          · exact hfirst x (List.mem_cons_of_mem q hx)

/-- The selection scan from an empty best on a nonempty list returns
the first-encountered maximum. -/
theorem scanBest_spec {α : Type _} (ltB : α → α → Bool)
    (hirr : ∀ x, ltB x x = false)
    (htr : ∀ x y z, ltB x y = true → ltB y z = true → ltB x z = true)
    (hnl : ∀ x y z, ltB x y = false → ltB x z = true → ltB y z = true)
    (hln : ∀ x y z, ltB x y = true → ltB z y = false → ltB x z = true)
    (l : List α) (hne : l ≠ []) :
    ∃ l1 m l2, l = l1 ++ m :: l2 ∧ scanBest ltB l none = some m ∧
      (∀ x ∈ l, ltB m x = false) ∧ (∀ x ∈ l1, ltB x m = true) := by
  cases l with
  | nil => exact absurd rfl hne
  | cons q t =>
    obtain ⟨l1, m, l2, hsplit, hres, hmax, hfirst⟩ := scanBest_go_spec ltB hirr htr hnl hln t q
    exact ⟨l1, m, l2, hsplit, hres, hmax, hfirst⟩

/-! ## Bridges from the two source loops to the selection scan -/

/-- The strict test the latestSemver loop applies between survivor
pairs: the parsed versions compare strictly below. -/
def vLtB (p q : semver.Version × ImageTag) : Bool := semver.lessThan p.1 q.1

theorem ordBeqLt_true_iff (o : Ordering) : (o == Ordering.lt) = true ↔ o = Ordering.lt := by
  cases o <;> decide

theorem ordBeqLt_false_iff (o : Ordering) : (o == Ordering.lt) = false ↔ o ≠ Ordering.lt := by
  cases o <;> decide

theorem vLtB_irrefl (p : semver.Version × ImageTag) : vLtB p p = false := by
  unfold vLtB semver.lessThan
  rw [semver.semverCompare_lawful.refl_eq]
  rfl

theorem vLtB_trans (x y z : semver.Version × ImageTag)
    (hxy : vLtB x y = true) (hyz : vLtB y z = true) : vLtB x z = true := by
  unfold vLtB semver.lessThan at *
  rw [ordBeqLt_true_iff] at hxy hyz ⊢
  exact semver.semverCompare_lawful.lt_trans _ _ _ hxy hyz

theorem vLtB_of_not_of_lt (x y z : semver.Version × ImageTag)
    (hxy : vLtB x y = false) (hxz : vLtB x z = true) : vLtB y z = true := by
  unfold vLtB semver.lessThan at *
  rw [ordBeqLt_true_iff] at hxz ⊢
  rw [ordBeqLt_false_iff] at hxy
  exact semver.semverCompare_lawful.lt_of_not_lt_of_lt hxy hxz

theorem vLtB_of_lt_of_not (x y z : semver.Version × ImageTag)
    (hxy : vLtB x y = true) (hzy : vLtB z y = false) : vLtB x z = true := by
  unfold vLtB semver.lessThan at *
  rw [ordBeqLt_true_iff] at hxy ⊢
  rw [ordBeqLt_false_iff] at hzy
  exact semver.semverCompare_lawful.lt_of_lt_of_not_lt hxy hzy

/-- One step of the latestSemver loop: a tag that fails the filter
pipeline leaves the best untouched; a surviving tag challenges the
best exactly as the final comparison of the source does. -/
theorem latestSemverGo_cons (opts : Options) (t : ImageTag) (rest : List ImageTag)
    (acc : Option (semver.Version × ImageTag)) :
    latestSemverGo opts (t :: rest) acc =
      match survives opts t with
      | none => latestSemverGo opts rest acc
      | some v =>
        match acc with
        | none => latestSemverGo opts rest (some (v, t))
        | some (bv, bt) =>
          if semver.lessThan bv v then latestSemverGo opts rest (some (v, t))
          else latestSemverGo opts rest (some (bv, bt)) := by
  cases hs : semver.newVersion t.tag with
  | error e =>
    cases e
    simp [latestSemverGo, survives, hs]
  | ok v =>
    cases h1 : regexOK opts t
    · simp [latestSemverGo, survives, hs, h1]
    · cases h2 : preOK opts v
      · simp [latestSemverGo, survives, hs, h1, h2]
      · cases h3 : pinMajorOK opts v
        · simp [latestSemverGo, survives, hs, h1, h2, h3]
        · cases h4 : pinMinorOK opts v
          · simp [latestSemverGo, survives, hs, h1, h2, h3, h4]
          · cases h5 : pinPatchOK opts v
            · simp [latestSemverGo, survives, hs, h1, h2, h3, h4, h5]
            · simp [latestSemverGo, survives, hs, h1, h2, h3, h4, h5]

/-- The latestSemver loop is the selection scan over the surviving
tag-version pairs. -/
theorem latestSemverGo_eq_scanBest (opts : Options) (tags : List ImageTag)
    (acc : Option (semver.Version × ImageTag)) :
    latestSemverGo opts tags acc = scanBest vLtB (survivorsList opts tags) acc := by
  induction tags generalizing acc with
  | nil => rfl
  | cons t rest ih =>
    rw [latestSemverGo_cons]
    cases hs : survives opts t with
    | none =>
      have hfm : survivorsList opts (t :: rest) = survivorsList opts rest := by
        simp [survivorsList, List.filterMap_cons, hs]
      rw [hfm]
      exact ih acc
    | some v =>
      have hfm : survivorsList opts (t :: rest) = (v, t) :: survivorsList opts rest := by
        simp [survivorsList, List.filterMap_cons, hs]
      rw [hfm]
      cases acc with
      | none => exact ih _
      | some q =>
        obtain ⟨bv, bt⟩ := q
        have hv : vLtB (bv, bt) (v, t) = semver.lessThan bv v := rfl
        show _ = scanBest vLtB ((v, t) :: survivorsList opts rest) (some (bv, bt))
        simp only [scanBest, hv]
        cases hlt : semver.lessThan bv v <;> simp [hlt] <;> exact ih _

/-- The strict test of the latestSHA loop: the After comparison of the
registry timestamps. -/
def tsLtB (a b : ImageTag) : Bool := decide (a.timestamp < b.timestamp)

theorem tsLtB_irrefl (x : ImageTag) : tsLtB x x = false := by
  simp [tsLtB]

theorem tsLtB_trans (x y z : ImageTag)
    (hxy : tsLtB x y = true) (hyz : tsLtB y z = true) : tsLtB x z = true := by
  simp only [tsLtB, decide_eq_true_eq] at hxy hyz ⊢
  omega

theorem tsLtB_of_not_of_lt (x y z : ImageTag)
    (hxy : tsLtB x y = false) (hxz : tsLtB x z = true) : tsLtB y z = true := by
  simp only [tsLtB, decide_eq_true_eq, decide_eq_false_iff_not] at hxy hxz ⊢
  omega

theorem tsLtB_of_lt_of_not (x y z : ImageTag)
    (hxy : tsLtB x y = true) (hzy : tsLtB z y = false) : tsLtB x z = true := by
  simp only [tsLtB, decide_eq_true_eq, decide_eq_false_iff_not] at hxy hzy ⊢
  omega

/-- The latestSHA loop is the selection scan under the timestamp
test. -/
theorem latestSHAGo_eq_scanBest (tags : List ImageTag) (acc : Option ImageTag) :
    latestSHAGo tags acc = scanBest tsLtB tags acc := by
  induction tags generalizing acc with
  | nil => rfl
  | cons t rest ih =>
    cases acc with
    | none => exact ih _
    | some b =>
      by_cases h : b.timestamp < t.timestamp
      · have ht : tsLtB b t = true := by simp [tsLtB, h]
        simp only [latestSHAGo, scanBest, ht, if_pos h, if_true]
        exact ih _
      · have ht : tsLtB b t = false := by simp [tsLtB, h]
        simp only [latestSHAGo, scanBest, ht, if_neg h, Bool.false_eq_true, if_false]
        exact ih _

/-! ## Unparsable tags do not contribute (claim C2 groundwork) -/

/-- Whether the tag text parses as a semantic version. -/
def parsesAsSemver (s : String) : Bool :=
  match semver.newVersion s with
  | .ok _ => true
  | .error _ => false

/-- Filtering with a predicate that is necessary for the partial map
does not change a filterMap. -/
theorem filterMap_filter_eq {α β : Type _} (p : α → Bool) (f : α → Option β)
    (h : ∀ a, p a = false → f a = none) (l : List α) :
    (l.filter p).filterMap f = l.filterMap f := by
  induction l with
  | nil => rfl
  | cons a l ih =>
    simp only [List.filter_cons]
    cases hp : p a
    · simp only [Bool.false_eq_true, if_false]
      rw [List.filterMap_cons, h a hp]
      exact ih
    · simp only [if_true]
      rw [List.filterMap_cons, List.filterMap_cons]
      cases hf : f a
      · exact ih
      · rw [ih]

/-- The surviving tags of a list are the surviving tags of its
parsable sublist. -/
theorem survivorsList_filter_parsable (opts : Options) (tags : List ImageTag) :
    survivorsList opts (tags.filter fun t => parsesAsSemver t.tag) =
      survivorsList opts tags := by
  refine filterMap_filter_eq _ _ (fun t hp => ?_) tags
  cases hs : semver.newVersion t.tag with
  | error e => simp [survives, hs]
  | ok v => simp [parsesAsSemver, hs] at hp

/-! ## Concrete fixtures for the witnesses -/

/-- Default options fixture: semver selection, no pins, no regex. -/
def optsDefault : Options := ⟨false, false, none, none, none, none⟩

/-- Tag-list fixture from the testable properties of the spec. -/
def tagsFixture : List ImageTag :=
  [⟨"1.2.3", "", 0⟩, ⟨"1.3.0", "", 0⟩, ⟨"1.3.0-beta", "", 0⟩, ⟨"abc", "", 0⟩]

/-- Tag-list fixture for the SHA path: three timestamps in mixed
order. -/
def shaFixture : List ImageTag := [⟨"a", "", 1⟩, ⟨"c", "", 3⟩, ⟨"b", "", 2⟩]

/-- Client-set fixture whose predicates all decline, so dispatch falls
back to docker. -/
def clientsNone : ClientSet := ⟨fun _ => false, fun _ => false, fun _ => false⟩

/-- Fetch stub fixture: every client returns one tag. -/
def fetchOneTag : Client → String → Except String (List ImageTag) :=
  fun _ _ => .ok [⟨"latest", "sha256", 5⟩]

/-- Fetch stub fixture: every fetch fails. -/
def fetchErr : Client → String → Except String (List ImageTag) :=
  fun _ _ => .error "connection refused"

/-! ## The claims -/

/-- Claim C1: for every options value with UseSHA false and every tag
list, latestSemver returns the first-encountered maximal surviving tag:
a survivor (v, t) at a split position such that no survivor parses
strictly greater than v and every earlier survivor parses strictly
less than v; and it returns the no-match error echoing the option set
exactly when no tag survives the filters. -/
theorem latestSemver_first_max (opts : Options) (tags : List ImageTag)
    (_hsha : opts.useSHA = false) :
    (survivorsList opts tags = [] →
      latestSemver opts tags = (none, some (VErr.noMatchConstraints opts))) ∧
    (survivorsList opts tags ≠ [] →
      ∃ l1 v t l2, survivorsList opts tags = l1 ++ (v, t) :: l2 ∧
        latestSemver opts tags = (some t, none) ∧
        (∀ p ∈ survivorsList opts tags, semver.lessThan v p.1 = false) ∧
        (∀ p ∈ l1, semver.lessThan p.1 v = true)) := by
  constructor
  · intro hemp
    unfold latestSemver
    rw [latestSemverGo_eq_scanBest, hemp]
    rfl
  · intro hne
    obtain ⟨l1, m, l2, hsplit, hres, hmax, hfirst⟩ :=
      scanBest_spec vLtB vLtB_irrefl vLtB_trans vLtB_of_not_of_lt vLtB_of_lt_of_not
        (survivorsList opts tags) hne
    obtain ⟨v, t⟩ := m
    refine ⟨l1, v, t, l2, hsplit, ?_, ?_, ?_⟩
    · unfold latestSemver
      rw [latestSemverGo_eq_scanBest, hres]
    · intro p hp
      exact hmax p hp
    · intro p hp
      exact hfirst p hp

/-- Witness for C1 at the semver selection fixture of the spec; the
extra conjunct pins the computed winner to the tag 1.3.0. -/
theorem latestSemver_first_max_witness :
    ((survivorsList optsDefault tagsFixture = [] →
        latestSemver optsDefault tagsFixture = (none, some (VErr.noMatchConstraints optsDefault))) ∧
      (survivorsList optsDefault tagsFixture ≠ [] →
        ∃ l1 v t l2, survivorsList optsDefault tagsFixture = l1 ++ (v, t) :: l2 ∧
          latestSemver optsDefault tagsFixture = (some t, none) ∧
          (∀ p ∈ survivorsList optsDefault tagsFixture, semver.lessThan v p.1 = false) ∧
          (∀ p ∈ l1, semver.lessThan p.1 v = true))) ∧
    latestSemver optsDefault tagsFixture = (some ⟨"1.3.0", "", 0⟩, none) :=
  ⟨latestSemver_first_max optsDefault tagsFixture rfl, rfl⟩

/-- Claim C2: tags whose text fails to parse as a semantic version are
silently skipped and never make latestSemver error: the result on any
tag list equals the result on its parsable sublist. -/
theorem latestSemver_skips_unparsable (opts : Options) (tags : List ImageTag) :
    latestSemver opts tags =
      latestSemver opts (tags.filter fun t => parsesAsSemver t.tag) := by
  unfold latestSemver
  rw [latestSemverGo_eq_scanBest, latestSemverGo_eq_scanBest, survivorsList_filter_parsable]

/-- Claim C3 (refuting evaluation): the store performed by
allTagsFromImage after a successful non-empty fetch writes the cache
map while the writer lock is not held: at a concrete cache miss the
trace records the store with writerLockHeld false, because the source
acquires cacheMu nowhere in the function, against the locking policy
of the spec. -/
theorem allTags_store_without_writer_lock :
    (allTagsFromImage ⟨0, 10, []⟩ clientsNone fetchOneTag "example.com/app").2.2 =
      [TraceEvent.fetch Client.docker "example.com/app",
        TraceEvent.storeWrite "example.com/app" false] := rfl

/-- Claim C4: on a cache miss, a failed fetch or an empty fetch result
makes allTagsFromImage return an error with the cache left exactly as
it was; the cache is written only on a successful non-empty fetch, and
then as the stored entry of that fetch. -/
theorem allTags_error_paths_leave_cache (st : VGState) (cs : ClientSet)
    (fetch : Client → String → Except String (List ImageTag)) (url : String)
    (hmiss : tryImageCache st.now st.cacheTimeout st.imageCache url = none) :
    (∀ e, fetch (clientFromImage cs url) url = .error e →
      allTagsFromImage st cs fetch url =
        (([], some (VErr.fetchFailed url e)), st.imageCache,
          [TraceEvent.fetch (clientFromImage cs url) url])) ∧
    (fetch (clientFromImage cs url) url = .ok [] →
      allTagsFromImage st cs fetch url =
        (([], some (VErr.noTagsFound url)), st.imageCache,
          [TraceEvent.fetch (clientFromImage cs url) url])) ∧
    (∀ tags, fetch (clientFromImage cs url) url = .ok tags → tags ≠ [] →
      allTagsFromImage st cs fetch url =
        ((tags, none), storeCache st.imageCache url ⟨st.now, tags⟩,
          [TraceEvent.fetch (clientFromImage cs url) url,
            TraceEvent.storeWrite url false])) := by
  refine ⟨?_, ?_, ?_⟩
  · intro e he
    unfold allTagsFromImage
    rw [hmiss, he]
  · intro he
    unfold allTagsFromImage
    rw [hmiss, he]
    rfl
  · intro tags hok hne
    unfold allTagsFromImage
    rw [hmiss, hok]
    cases tags with
    | nil => exact absurd rfl hne
    | cons t ts => rfl

/-- Witness for C4: a concrete cache miss with a failing fetch returns
the fetch error and leaves the empty cache untouched. -/
theorem allTags_error_paths_leave_cache_witness :
    allTagsFromImage ⟨0, 10, []⟩ clientsNone fetchErr "example.com/app" =
      (([], some (VErr.fetchFailed "example.com/app" "connection refused")), [],
        [TraceEvent.fetch Client.docker "example.com/app"]) :=
  (allTags_error_paths_leave_cache ⟨0, 10, []⟩ clientsNone fetchErr "example.com/app" rfl).1
    "connection refused" rfl

/-- Claim C5: for every non-empty tag list latestSHA returns the
first-encountered tag of maximal timestamp, irrespective of tag text:
no tag is strictly After it and every earlier tag is strictly older;
and it returns the no-latest error exactly when the list is empty. -/
theorem latestSHA_first_max (tags : List ImageTag) :
    (tags = [] → latestSHA tags = (none, some VErr.noLatestSHA)) ∧
    (tags ≠ [] →
      ∃ l1 t l2, tags = l1 ++ t :: l2 ∧
        latestSHA tags = (some t, none) ∧
        (∀ u ∈ tags, ¬ t.timestamp < u.timestamp) ∧
        (∀ u ∈ l1, u.timestamp < t.timestamp)) := by
  constructor
  · intro h
    subst h
    rfl
  · intro hne
    obtain ⟨l1, m, l2, hsplit, hres, hmax, hfirst⟩ :=
      scanBest_spec tsLtB tsLtB_irrefl tsLtB_trans tsLtB_of_not_of_lt tsLtB_of_lt_of_not tags hne
    refine ⟨l1, m, l2, hsplit, ?_, ?_, ?_⟩
    · unfold latestSHA
      rw [latestSHAGo_eq_scanBest, hres]
    · intro u hu
      have hm := hmax u hu
      simpa [tsLtB] using hm
    · intro u hu
      have hf := hfirst u hu
      simpa [tsLtB] using hf

/-- Witness for C5 at the SHA fixture of the spec; the extra conjunct
pins the computed winner to the tag of timestamp 3. -/
theorem latestSHA_first_max_witness :
    ((shaFixture = [] → latestSHA shaFixture = (none, some VErr.noLatestSHA)) ∧
      (shaFixture ≠ [] →
        ∃ l1 t l2, shaFixture = l1 ++ t :: l2 ∧
          latestSHA shaFixture = (some t, none) ∧
          (∀ u ∈ shaFixture, ¬ t.timestamp < u.timestamp) ∧
          (∀ u ∈ l1, u.timestamp < t.timestamp))) ∧
    latestSHA shaFixture = (some ⟨"c", "", 3⟩, none) :=
  ⟨latestSHA_first_max shaFixture, rfl⟩

/-- Claim C6: when UseSHA is set the selection result is independent
of the semver-only option fields: two option values both with UseSHA
true give identical results of LatestTagFromImage for every state,
client set, fetcher and image URL. -/
theorem latestTag_useSHA_ignores_semver_options (st : VGState) (cs : ClientSet)
    (fetch : Client → String → Except String (List ImageTag)) (o1 o2 : Options)
    (url : String) (h1 : o1.useSHA = true) (h2 : o2.useSHA = true) :
    LatestTagFromImage st cs fetch o1 url = LatestTagFromImage st cs fetch o2 url := by
  unfold LatestTagFromImage
  rcases hall : allTagsFromImage st cs fetch url with ⟨⟨tags, errOpt⟩, cache2, tr⟩
  cases errOpt with
  | some e => rfl
  | none => simp [h1, h2]

/-- Witness for C6: two option values differing in every semver-only
field, both with UseSHA set, give the same result. -/
theorem latestTag_useSHA_ignores_semver_options_witness :
    LatestTagFromImage ⟨0, 10, []⟩ clientsNone fetchOneTag
        ⟨true, false, none, none, none, none⟩ "example.com/app" =
      LatestTagFromImage ⟨0, 10, []⟩ clientsNone fetchOneTag
        ⟨true, true, some 1, some 2, some 3, some fun _ => false⟩ "example.com/app" :=
  latestTag_useSHA_ignores_semver_options ⟨0, 10, []⟩ clientsNone fetchOneTag
    ⟨true, false, none, none, none, none⟩ ⟨true, true, some 1, some 2, some 3, some fun _ => false⟩
    "example.com/app" rfl rfl

/-- Claim C7: the dispatcher is total and deterministic and matches
the spec description exactly: the client predicates are tried in the
fixed priority order quay, gcr, docker; the first predicate returning
true wins; docker is returned, never an error, when none matches. -/
theorem clientFromImage_eq_dispatchSpec (cs : ClientSet) (imageURL : String) :
    clientFromImage cs imageURL = dispatchSpec cs imageURL := by
  unfold clientFromImage dispatchSpec
  cases hq : cs.quayIs imageURL
  · cases hg : cs.gcrIs imageURL
    · cases hd : cs.dockerIs imageURL
      · simp [List.find?, hq, hg, hd]
      · simp [List.find?, hq, hg, hd]
    · simp [List.find?, hq, hg]
  · simp [List.find?, hq]

/-- Claim C8: the option fingerprint is pure and deterministic:
structurally equal option values give the identical string for every
URL, and the string is the decimal rendering of the 32-bit FNV-1 hash
of the serialized options followed by the URL bytes. -/
theorem CalculateHashIndex_deterministic (imageURL : String) (o1 o2 : Options)
    (h : o1 = o2) :
    CalculateHashIndex imageURL o1 = CalculateHashIndex imageURL o2 ∧
    CalculateHashIndex imageURL o1 =
      .ok (toString (fnv32 (serializeOptions o1 ++ strBytes imageURL))) := by
  subst h
  exact ⟨rfl, rfl⟩

/-- Witness for C8 at a concrete URL; the extra conjunct pins the
computed fingerprint string. -/
theorem CalculateHashIndex_deterministic_witness :
    (CalculateHashIndex "quay.io/jetstack/cert-manager" optsDefault =
        CalculateHashIndex "quay.io/jetstack/cert-manager" optsDefault ∧
      CalculateHashIndex "quay.io/jetstack/cert-manager" optsDefault =
        .ok (toString (fnv32 (serializeOptions optsDefault ++
          strBytes "quay.io/jetstack/cert-manager")))) ∧
    CalculateHashIndex "quay.io/jetstack/cert-manager" optsDefault = .ok "496680130" :=
  ⟨CalculateHashIndex_deterministic "quay.io/jetstack/cert-manager" optsDefault optsDefault rfl,
    rfl⟩

/-- Claim C9: a cache hit returns the cached tags at once: no client
is dispatched and no fetch runs (the trace is only the hit event), and
the cache is unchanged. -/
theorem allTags_cache_hit (st : VGState) (cs : ClientSet)
    (fetch : Client → String → Except String (List ImageTag)) (url : String)
    (tags : List ImageTag)
    (hhit : tryImageCache st.now st.cacheTimeout st.imageCache url = some tags) :
    allTagsFromImage st cs fetch url =
      ((tags, none), st.imageCache, [TraceEvent.cacheHit url]) := by
  unfold allTagsFromImage
  rw [hhit]

/-- Witness for C9: a fresh concrete cache entry is served unchanged
even though every fetch through the stub would fail. -/
theorem allTags_cache_hit_witness :
    allTagsFromImage ⟨5, 10, [("example.com/app", ⟨0, [⟨"v1", "", 0⟩]⟩)]⟩ clientsNone fetchErr
        "example.com/app" =
      (([⟨"v1", "", 0⟩], none), [("example.com/app", ⟨0, [⟨"v1", "", 0⟩]⟩)],
        [TraceEvent.cacheHit "example.com/app"]) :=
  allTags_cache_hit ⟨5, 10, [("example.com/app", ⟨0, [⟨"v1", "", 0⟩]⟩)]⟩ clientsNone fetchErr
    "example.com/app" [⟨"v1", "", 0⟩] rfl

/-- The latestSemver pair never carries both a tag and an error, nor
neither. -/
theorem latestSemver_xor (opts : Options) (tags : List ImageTag) :
    ((latestSemver opts tags).1.isSome = true ↔ (latestSemver opts tags).2.isNone = true) := by
  unfold latestSemver
  cases latestSemverGo opts tags none with
  | none => simp
  | some p =>
    obtain ⟨v, t⟩ := p
    simp

/-- The latestSHA pair never carries both a tag and an error, nor
neither. -/
theorem latestSHA_xor (tags : List ImageTag) :
    ((latestSHA tags).1.isSome = true ↔ (latestSHA tags).2.isNone = true) := by
  unfold latestSHA
  cases latestSHAGo tags none with
  | none => simp
  | some t => simp

/-- Claim C10: LatestTagFromImage returns exactly one of a tag or an
error: the returned tag is some exactly when the returned error is
none, for every state, client set, fetcher, options and URL. -/
theorem latestTag_tag_xor_error (st : VGState) (cs : ClientSet)
    (fetch : Client → String → Except String (List ImageTag)) (opts : Options) (url : String) :
    ((LatestTagFromImage st cs fetch opts url).1.1.isSome = true ↔
      (LatestTagFromImage st cs fetch opts url).1.2.isNone = true) := by
  unfold LatestTagFromImage
  rcases hall : allTagsFromImage st cs fetch url with ⟨⟨tags, errOpt⟩, cache2, tr⟩
  cases errOpt with
  | some e => simp
  | none =>
    cases h : opts.useSHA
    · simpa using latestSemver_xor opts tags
    · simpa using latestSHA_xor tags

end VersionChecker
